import Mathlib

/-!
# Verification of the payqr template field model and payload renderer

Shallow embedding of `src/payqr/templates.py` (`TemplateManager`): the
config/template merge, the three-shape field normalizer `get_fields`, and the
payload renderer `render_payload`, together with theorems settling the
specification's claims about them.

Modelling conventions:
* A parsed TOML document (the result of `tomllib.load`) is an ordered,
  string-keyed association list `Doc`; Python `dict` insertion (replace the
  value in place when the key exists, append otherwise) is `dictInsert`, and
  `dict.get` / `in` are `dictGet` / `hasKey`.  Parsed documents have pairwise
  distinct keys (tomllib rejects duplicates), which appears as `Nodup`
  hypotheses where ordering matters.
* `Toml` covers the value shapes the repository's templates use: strings,
  booleans, tables and arrays (integer/float/date scalars are unused here).
* A value flowing through `render_payload` may also be Python `None`
  (override maps); `PyVal` adjoins `None` to `Toml`, `pystr` is Python
  `str()` on such values (`str(None) = "None"`), and `tomlRepr` is `repr`
  (string-escaping inside `repr` is not modelled; no claim depends on it).
* Fallible code returns `Option`: `render_payload` evaluates to `none`
  exactly where the Python raises (a field record that is not a dict or has
  no `"key"` entry raises `KeyError`/`TypeError`; an unhashable (table or
  array) field key raises `TypeError` inside `overrides.get`/`seen.add`; a
  non-string separator raises at `str.join`).
-/

set_option maxHeartbeats 1000000

namespace PayQR

/-- A parsed TOML value, as produced by `tomllib.load`. -/
inductive Toml where
  | str (s : String)
  | bool (b : Bool)
  | table (entries : List (String × Toml))
  | arr (items : List Toml)

mutual

/-- Decidable equality of parsed TOML values (Python `==` on the shapes we
model). -/
def decEqToml : (a b : Toml) → Decidable (a = b)
  | .str s, .str t =>
    match String.decEq s t with
    | .isTrue h => .isTrue (by rw [h])
    | .isFalse h => .isFalse (by simp [h])
  | .bool a, .bool b =>
    match Bool.decEq a b with
    | .isTrue h => .isTrue (by rw [h])
    | .isFalse h => .isFalse (by simp [h])
  | .table xs, .table ys =>
    match decEqEntries xs ys with
    | .isTrue h => .isTrue (by rw [h])
    | .isFalse h => .isFalse (by simp [h])
  | .arr xs, .arr ys =>
    match decEqItems xs ys with
    | .isTrue h => .isTrue (by rw [h])
    | .isFalse h => .isFalse (by simp [h])
  | .str _, .bool _ => .isFalse (by simp)
  | .str _, .table _ => .isFalse (by simp)
  | .str _, .arr _ => .isFalse (by simp)
  | .bool _, .str _ => .isFalse (by simp)
  | .bool _, .table _ => .isFalse (by simp)
  | .bool _, .arr _ => .isFalse (by simp)
  | .table _, .str _ => .isFalse (by simp)
  | .table _, .bool _ => .isFalse (by simp)
  | .table _, .arr _ => .isFalse (by simp)
  | .arr _, .str _ => .isFalse (by simp)
  | .arr _, .bool _ => .isFalse (by simp)
  | .arr _, .table _ => .isFalse (by simp)

/-- Decidable equality of table bodies. -/
def decEqEntries : (a b : List (String × Toml)) → Decidable (a = b)
  | [], [] => .isTrue rfl
  | [], _ :: _ => .isFalse (by simp)
  | _ :: _, [] => .isFalse (by simp)
  | p :: xs, q :: ys =>
    match String.decEq p.1 q.1, decEqToml p.2 q.2, decEqEntries xs ys with
    | .isTrue h1, .isTrue h2, .isTrue h3 =>
      .isTrue (by
        cases p; cases q
        simp only at h1 h2
        rw [h1, h2, h3])
    | .isFalse h1, _, _ => .isFalse (fun hh => h1 (by cases hh; rfl))
    | _, .isFalse h2, _ => .isFalse (fun hh => h2 (by cases hh; rfl))
    | _, _, .isFalse h3 => .isFalse (fun hh => h3 (by cases hh; rfl))

/-- Decidable equality of array bodies. -/
def decEqItems : (a b : List Toml) → Decidable (a = b)
  | [], [] => .isTrue rfl
  | [], _ :: _ => .isFalse (by simp)
  | _ :: _, [] => .isFalse (by simp)
  | x :: xs, y :: ys =>
    match decEqToml x y, decEqItems xs ys with
    | .isTrue h1, .isTrue h2 => .isTrue (by rw [h1, h2])
    | .isFalse h1, _ => .isFalse (fun hh => h1 (by cases hh; rfl))
    | _, .isFalse h2 => .isFalse (fun hh => h2 (by cases hh; rfl))

end

instance : DecidableEq Toml := decEqToml

/-- A parsed TOML document: a string-keyed ordered mapping (Python `dict`). -/
abbrev Doc := List (String × Toml)

/-- A Python value appearing in override maps: either `None` or a value. -/
inductive PyVal where
  | none
  | val (t : Toml)
deriving DecidableEq

/-- Python `d.get(k)` on a string-keyed dict (first matching key; parsed
documents have unique keys). -/
def dictGet {α : Type} : List (String × α) → String → Option α
  | [], _ => Option.none
  | p :: rest, k => if p.1 = k then some p.2 else dictGet rest k

/-- Python `k in d` on a string-keyed dict. -/
def hasKey {α : Type} (d : List (String × α)) (k : String) : Bool :=
  (dictGet d k).isSome

/-- Python `d[k] = v` on a dict: replace the value in place when `k` is
already present (the key keeps its position), append otherwise. -/
def dictInsert {α : Type} : List (String × α) → String → α → List (String × α)
  | [], k, v => [(k, v)]
  | p :: rest, k, v =>
    if p.1 = k then (p.1, v) :: rest else p :: dictInsert rest k v

/-- The three recognized rendering-setting keys (`known_top` in
`get_fields`, and the tuple tested in `_merge_config_and_template`). -/
def known_top : List String := ["separator", "kv_sep", "trim_empty"]

/-- `isinstance(item, dict) and ("key" in item or "value" in item)`: the
field-declaration test used by the merge and by `get_fields`. -/
def isFieldShaped : Toml → Bool
  | .table entries => hasKey entries "key" || hasKey entries "value"
  | _ => false

/-- `TemplateManager._merge_config_and_template`: copy the three settings
from config, then the field-shaped config entries (skipping setting labels),
then the field-shaped template entries, with dict-insert semantics. -/
def merge_config_and_template (config tmpl : Doc) : Doc :=
  let merged : Doc := known_top.foldl (fun m key =>
      match dictGet config key with
      | some v => dictInsert m key v
      | Option.none => m) []
  let merged := config.foldl (fun m p =>
      if known_top.contains p.1 then m
      else if isFieldShaped p.2 then dictInsert m p.1 p.2
      else m) merged
  tmpl.foldl (fun m p =>
      if isFieldShaped p.2 then dictInsert m p.1 p.2 else m) merged

/-- Python truthiness of a parsed TOML value (`bool(x)`). -/
def truthy : Toml → Bool
  | .str s => !s.isEmpty
  | .bool b => b
  | .table entries => !entries.isEmpty
  | .arr items => !items.isEmpty

/-- `TemplateManager.separator`: `self._cfg.get("separator", "|")`. -/
def separator (cfg : Doc) : Toml := (dictGet cfg "separator").getD (.str "|")

/-- `TemplateManager.kv_sep`: `self._cfg.get("kv_sep", ":")`. -/
def kv_sep (cfg : Doc) : Toml := (dictGet cfg "kv_sep").getD (.str ":")

/-- `TemplateManager.trim_empty`: `bool(self._cfg.get("trim_empty", True))`. -/
def trim_empty (cfg : Doc) : Bool := truthy ((dictGet cfg "trim_empty").getD (.bool true))

mutual

/-- Python `repr` of a parsed TOML value (string escaping inside `repr` is
not modelled; no claim depends on it). -/
def tomlRepr : Toml → String
  | .str s => "\x27" ++ s ++ "\x27"
  | .bool true => "True"
  | .bool false => "False"
  | .table entries => "\x7b" ++ tomlReprEntries entries ++ "\x7d"
  | .arr items => "[" ++ tomlReprItems items ++ "]"

/-- `repr` of a dict body, comma-separated. -/
def tomlReprEntries : List (String × Toml) → String
  | [] => ""
  | [p] => "\x27" ++ p.1 ++ "\x27: " ++ tomlRepr p.2
  | p :: q :: rest => "\x27" ++ p.1 ++ "\x27: " ++ tomlRepr p.2 ++ ", " ++ tomlReprEntries (q :: rest)

/-- `repr` of a list body, comma-separated. -/
def tomlReprItems : List Toml → String
  | [] => ""
  | [t] => tomlRepr t
  | t :: u :: rest => tomlRepr t ++ ", " ++ tomlReprItems (u :: rest)

end

/-- Python `str()` / f-string conversion of a parsed TOML value. -/
def tomlStr : Toml → String
  | .str s => s
  | t => tomlRepr t

/-- Python `str()` of an override value (`str(None) = "None"`). -/
def pystr : PyVal → String
  | .none => "None"
  | .val t => tomlStr t

/-- The normalized field record built by `get_fields` shapes 2 and 3 (both
build the same dict, in the same insertion order):
`{"key": item.get("key",""), "value": item.get("value",""),
  "label": item.get("label", label)}` plus `required`/`pattern` if present. -/
def normalize_field (label : String) (item : List (String × Toml)) : Toml :=
  .table (
    [("key", (dictGet item "key").getD (.str "")),
     ("value", (dictGet item "value").getD (.str "")),
     ("label", (dictGet item "label").getD (.str label))]
    ++ (match dictGet item "required" with
        | some r => [("required", r)]
        | Option.none => [])
    ++ (match dictGet item "pattern" with
        | some pt => [("pattern", pt)]
        | Option.none => []))

/-- Normalization of one labelled document entry (only applied to
field-shaped entries, which are always tables). -/
def normalizeEntry (p : String × Toml) : Toml :=
  match p.2 with
  | .table entries => normalize_field p.1 entries
  | t => t

/-- Shape 2 of `get_fields` (`[fields.Label]`): normalize the field-shaped
sub-tables of the `fields` table, in iteration order. -/
def groupedFields : List (String × Toml) → List Toml
  | [] => []
  | p :: rest =>
    if isFieldShaped p.2 then normalizeEntry p :: groupedFields rest
    else groupedFields rest

/-- Shape 3 of `get_fields` (flat `[Label]` tables): normalize every
field-shaped top-level entry whose label is not a setting key. -/
def flatFields : Doc → List Toml
  | [] => []
  | p :: rest =>
    if known_top.contains p.1 then flatFields rest
    else if isFieldShaped p.2 then normalizeEntry p :: flatFields rest
    else flatFields rest

/-- `TemplateManager.get_fields`: shape 1 (`fields` is a list) returns the
items verbatim; shape 2 (`fields` is a table) returns its normalized
field-shaped sub-tables when nonempty; otherwise shape 3. -/
def get_fields (cfg : Doc) : List Toml :=
  match dictGet cfg "fields" with
  | some (.arr items) => items
  | some (.table kvs) =>
    let result := groupedFields kvs
    if result.isEmpty then flatFields cfg else result
  | _ => flatFields cfg

/-- Python hashability of a parsed TOML value: dict/list are unhashable
(`overrides.get(field_key)` and `seen.add(field_key)` raise `TypeError`). -/
def hashable : Toml → Bool
  | .table _ => false
  | .arr _ => false
  | _ => true

/-- Value resolution in `render_payload`'s declared-field loop:
`value = overrides.get(field_key, item.get("value", ""))`;
`if value is None: value = ""`. -/
def resolveValue (overrides : List (String × PyVal)) (field_key : Toml)
    (item : List (String × Toml)) : PyVal :=
  let stored := PyVal.val ((dictGet item "value").getD (.str ""))
  let value := match field_key with
    | .str k => (dictGet overrides k).getD stored
    | _ => stored
  match value with
  | .none => .val (.str "")
  | v => v

/-- One iteration of `render_payload`'s declared-field loop over the state
`(out, seen)`: look up `item["key"]` (raising when absent, when the record is
not a dict, or when the key is unhashable), resolve the value, skip when
`trim_empty` and the resolved value prints empty, otherwise append the
segment and mark the key as seen. -/
def renderField (cfg : Doc) (overrides : List (String × PyVal))
    (st : List String × List Toml) : Toml → Option (List String × List Toml)
  | .table item =>
    match dictGet item "key" with
    | some field_key =>
      if hashable field_key then
        let value := resolveValue overrides field_key item
        if trim_empty cfg && pystr value == "" then some st
        else some (st.1 ++ [tomlStr field_key ++ tomlStr (kv_sep cfg) ++ pystr value],
                   st.2 ++ [field_key])
      else Option.none
    | Option.none => Option.none
  | _ => Option.none

/-- One iteration of `render_payload`'s extras loop: skip keys already seen,
apply the trim rule (`v is None or str(v) == ""`), otherwise append. -/
def extraStep (cfg : Doc) (seen : List Toml) (out : List String)
    (p : String × PyVal) : List String :=
  if seen.contains (.str p.1) then out
  else if trim_empty cfg && (p.2 == PyVal.none || pystr p.2 == "") then out
  else out ++ [p.1 ++ tomlStr (kv_sep cfg) ++ pystr p.2]

/-- The `out` list built by `render_payload` before the final join. -/
def render_out (cfg : Doc) (overrides : List (String × PyVal))
    (include_extras : Bool) : Option (List String) := do
  let st ← (get_fields cfg).foldlM (renderField cfg overrides) ([], [])
  pure (if include_extras then overrides.foldl (extraStep cfg st.2) st.1 else st.1)

/-- `TemplateManager.render_payload`: build the segment list, then
`self.separator.join(out)` (raising when the separator setting is not a
string). -/
def render_payload (cfg : Doc) (overrides : List (String × PyVal))
    (include_extras : Bool) : Option String := do
  let out ← render_out cfg overrides include_extras
  match separator cfg with
  | .str s => pure (String.intercalate s out)
  | _ => Option.none

/-! ## Association-list (Python dict) lemmas -/

theorem dictGet_eq_none_iff {α : Type} (d : List (String × α)) (k : String) :
    dictGet d k = Option.none ↔ k ∉ d.map Prod.fst := by
  induction d with
  | nil => simp [dictGet]
  | cons p rest ih =>
    by_cases h : p.1 = k
    · simp [dictGet, h]
    · simp [dictGet, h, ih, Ne.symm h]

theorem dictGet_isSome_iff {α : Type} (d : List (String × α)) (k : String) :
    (dictGet d k).isSome = true ↔ k ∈ d.map Prod.fst := by
  induction d with
  | nil => simp [dictGet]
  | cons p rest ih =>
    by_cases h : p.1 = k
    · simp [dictGet, h]
    · simp [dictGet, h, ih, Ne.symm h]

theorem dictGet_append {α : Type} (a b : List (String × α)) (k : String) :
    dictGet (a ++ b) k =
      match dictGet a k with
      | some v => some v
      | Option.none => dictGet b k := by
  induction a with
  | nil => simp [dictGet]
  | cons p rest ih =>
    by_cases h : p.1 = k <;> simp [dictGet, h, ih]

theorem dictGet_append_of_not_mem {α : Type} (a b : List (String × α)) (k : String)
    (h : k ∉ a.map Prod.fst) : dictGet (a ++ b) k = dictGet b k := by
  rw [dictGet_append, (dictGet_eq_none_iff a k).mpr h]

theorem dictInsert_of_not_mem {α : Type} (m : List (String × α)) (k : String) (v : α)
    (h : k ∉ m.map Prod.fst) : dictInsert m k v = m ++ [(k, v)] := by
  induction m with
  | nil => simp [dictInsert]
  | cons p rest ih =>
    simp only [List.map_cons, List.mem_cons, not_or] at h
    simp [dictInsert, Ne.symm h.1, ih h.2]

theorem dictInsert_keys {α : Type} (m : List (String × α)) (k : String) (v : α) :
    (dictInsert m k v).map Prod.fst =
      if k ∈ m.map Prod.fst then m.map Prod.fst else m.map Prod.fst ++ [k] := by
  induction m with
  | nil => simp [dictInsert]
  | cons p rest ih =>
    by_cases h : p.1 = k
    · simp [dictInsert, h]
    · simp only [dictInsert, if_neg h, List.map_cons, ih, List.mem_cons]
      by_cases hk : k ∈ rest.map Prod.fst <;> simp [hk, Ne.symm h]

theorem dictInsert_keys_of_mem {α : Type} (m : List (String × α)) (k : String) (v : α)
    (h : k ∈ m.map Prod.fst) : (dictInsert m k v).map Prod.fst = m.map Prod.fst := by
  rw [dictInsert_keys, if_pos h]

theorem mem_keys_dictInsert_self {α : Type} (m : List (String × α)) (k : String) (v : α) :
    k ∈ (dictInsert m k v).map Prod.fst := by
  rw [dictInsert_keys]
  by_cases h : k ∈ m.map Prod.fst <;> simp [h]

theorem mem_keys_dictInsert_of_mem {α : Type} (m : List (String × α)) (k a : String) (v : α)
    (h : a ∈ m.map Prod.fst) : a ∈ (dictInsert m k v).map Prod.fst := by
  rw [dictInsert_keys]
  by_cases hk : k ∈ m.map Prod.fst <;> simp [hk, h]

theorem dictGet_dictInsert_self {α : Type} (m : List (String × α)) (k : String) (v : α) :
    dictGet (dictInsert m k v) k = some v := by
  induction m with
  | nil => simp [dictInsert, dictGet]
  | cons p rest ih =>
    by_cases h : p.1 = k <;> simp [dictInsert, dictGet, h, ih]

theorem dictGet_dictInsert_ne {α : Type} (m : List (String × α)) (k a : String) (v : α)
    (h : a ≠ k) : dictGet (dictInsert m k v) a = dictGet m a := by
  induction m with
  | nil => simp [dictInsert, dictGet, Ne.symm h]
  | cons p rest ih =>
    by_cases hp : p.1 = k
    · subst hp
      simp [dictInsert, dictGet, Ne.symm h]
    · by_cases ha : p.1 = a <;> simp [dictInsert, dictGet, hp, ha, h, ih]

theorem dictInsert_keys_nodup {α : Type} (m : List (String × α)) (k : String) (v : α)
    (h : (m.map Prod.fst).Nodup) : ((dictInsert m k v).map Prod.fst).Nodup := by
  rw [dictInsert_keys]
  by_cases hk : k ∈ m.map Prod.fst
  · simpa [hk]
  · simpa [hk, List.nodup_append] using h

/-! ## Characterization of the merge -/

/-- The settings block the merge copies from config: each of the three
recognized keys present in config, in that fixed order. -/
def settingsPart (c : Doc) : Doc :=
  known_top.filterMap (fun k => (dictGet c k).map (fun v => (k, v)))

/-- The field-shaped config entries the merge keeps, in config order. -/
def configFieldEntries (c : Doc) : Doc :=
  c.filter (fun p => !(known_top.contains p.1) && isFieldShaped p.2)

/-- The field-shaped template entries the merge keeps, in template order. -/
def templateFieldEntries (t : Doc) : Doc :=
  t.filter (fun p => isFieldShaped p.2)

theorem foldl_insert_fresh (f : Doc → String × Toml → Doc) (g : String × Toml → Bool)
    (hf : ∀ m p, f m p = if g p then dictInsert m p.1 p.2 else m)
    (l m : Doc)
    (hnd : ((l.filter g).map Prod.fst).Nodup)
    (hfresh : ∀ p ∈ l, g p = true → p.1 ∉ m.map Prod.fst) :
    l.foldl f m = m ++ l.filter g := by
  induction l generalizing m with
  | nil => simp
  | cons p rest ih =>
    by_cases hg : g p = true
    · have hfr : p.1 ∉ m.map Prod.fst := hfresh p (by simp) hg
      have hfilter : (p :: rest).filter g = p :: rest.filter g := by
        simp [List.filter_cons, hg]
      rw [hfilter] at hnd
      simp only [List.map_cons, List.nodup_cons] at hnd
      rw [List.foldl_cons, hf, if_pos hg, dictInsert_of_not_mem _ _ _ hfr]
      rw [ih (m ++ [p]) hnd.2]
      · rw [hfilter, List.append_assoc]
        rfl
      · intro q hq hgq
        simp only [List.map_append, List.mem_append, not_or]
        refine ⟨hfresh q (List.mem_cons_of_mem _ hq) hgq, ?_⟩
        simp only [List.map_cons, List.map_nil, List.mem_singleton]
        intro hqp
        exact hnd.1 (hqp ▸ List.mem_map_of_mem Prod.fst (List.mem_filter.mpr ⟨hq, hgq⟩))
    · have hfilter : (p :: rest).filter g = rest.filter g := by
        simp [List.filter_cons, hg]
      rw [hfilter] at hnd
      rw [List.foldl_cons, hf, if_neg hg, hfilter]
      exact ih m hnd (fun q hq hgq => hfresh q (List.mem_cons_of_mem _ hq) hgq)

theorem settings_fold_eq (c : Doc) :
    known_top.foldl (fun m key =>
      match dictGet c key with
      | some v => dictInsert m key v
      | Option.none => m) [] = settingsPart c := by
  simp only [known_top, settingsPart, List.filterMap]
  rcases h1 : dictGet c "separator" with _ | v1 <;>
    rcases h2 : dictGet c "kv_sep" with _ | v2 <;>
      rcases h3 : dictGet c "trim_empty" with _ | v3 <;>
        simp [h1, h2, h3, dictInsert]

theorem settingsPart_keys_mem (c : Doc) (a : String)
    (h : a ∈ (settingsPart c).map Prod.fst) : a ∈ known_top := by
  simp only [settingsPart, List.map_filterMap, List.mem_filterMap] at h
  obtain ⟨k, hk, hs⟩ := h
  rcases hget : dictGet c k with _ | v <;> simp [hget] at hs
  exact hs ▸ hk

theorem merge_eq_append (C T : Doc)
    (hndC : (C.map Prod.fst).Nodup) (hndT : (T.map Prod.fst).Nodup)
    (hresT : ∀ p ∈ T, isFieldShaped p.2 = true → p.1 ∉ known_top)
    (hdisj : ∀ p ∈ T, isFieldShaped p.2 = true →
      p.1 ∉ (configFieldEntries C).map Prod.fst) :
    merge_config_and_template C T =
      settingsPart C ++ configFieldEntries C ++ templateFieldEntries T := by
  simp only [merge_config_and_template]
  rw [settings_fold_eq]
  have hconfig : C.foldl (fun m p =>
      if known_top.contains p.1 then m
      else if isFieldShaped p.2 then dictInsert m p.1 p.2
      else m) (settingsPart C) = settingsPart C ++ configFieldEntries C := by
    refine foldl_insert_fresh _ (fun p => !(known_top.contains p.1) && isFieldShaped p.2)
      (fun m p => ?_) C (settingsPart C) ?_ ?_
    · by_cases h1 : known_top.contains p.1 <;>
        by_cases h2 : isFieldShaped p.2 <;> simp [h1, h2]
    · exact ((List.filter_sublist C).map Prod.fst).nodup hndC
    · intro p _ hg hmem
      simp only [Bool.and_eq_true, Bool.not_eq_true'] at hg
      have h2 : known_top.contains p.1 = true :=
        List.elem_eq_true_of_mem (settingsPart_keys_mem C p.1 hmem)
      rw [hg.1] at h2
      exact Bool.false_ne_true h2
  rw [hconfig]
  refine foldl_insert_fresh _ (fun p => isFieldShaped p.2)
    (fun m p => rfl) T _ ?_ ?_
  · exact ((List.filter_sublist T).map Prod.fst).nodup hndT
  · intro p hp hg
    simp only [List.map_append, List.mem_append, not_or]
    exact ⟨fun hmem => hresT p hp hg (settingsPart_keys_mem C p.1 hmem),
           hdisj p hp hg⟩

/-! ## Characterization of get_fields on a merged structure -/

/-- Labels with a special meaning for `get_fields` on the merged structure:
the three setting keys (skipped by the flat shape) and `fields` (which
selects shapes 1/2). -/
def reserved_labels : List String := ["separator", "kv_sep", "trim_empty", "fields"]

theorem all_reserved_spec (l : Doc)
    (h : l.all (fun p => !(isFieldShaped p.2) || !(reserved_labels.contains p.1)) = true) :
    ∀ p ∈ l, isFieldShaped p.2 = true → p.1 ∉ reserved_labels := by
  intro p hp hs hmem
  have h2 := List.all_eq_true.mp h p hp
  have h3 : reserved_labels.contains p.1 = true := List.elem_eq_true_of_mem hmem
  rw [hs, h3] at h2
  simp at h2

theorem known_top_subset_reserved : ∀ a ∈ known_top, a ∈ reserved_labels := by decide

theorem flatFields_append_known (a b : Doc) (h : ∀ p ∈ a, p.1 ∈ known_top) :
    flatFields (a ++ b) = flatFields b := by
  induction a with
  | nil => rfl
  | cons p rest ih =>
    have hc : known_top.contains p.1 = true := List.elem_eq_true_of_mem (h p (by simp))
    rw [List.cons_append]
    simp only [flatFields, hc, if_true]
    exact ih (fun q hq => h q (List.mem_cons_of_mem _ hq))

theorem flatFields_all_fields (l : Doc)
    (h : ∀ p ∈ l, isFieldShaped p.2 = true ∧ p.1 ∉ known_top) :
    flatFields l = l.map normalizeEntry := by
  induction l with
  | nil => rfl
  | cons p rest ih =>
    obtain ⟨h1, h2⟩ := h p (by simp)
    have hc : known_top.contains p.1 = false := by
      rw [Bool.eq_false_iff]
      intro hcc
      exact h2 (List.mem_of_elem_eq_true hcc)
    simp only [flatFields, hc, Bool.false_eq_true, if_false, h1, if_true, List.map_cons]
    rw [ih (fun q hq => h q (List.mem_cons_of_mem _ hq))]

theorem mem_configFieldEntries_spec (c : Doc) (p : String × Toml)
    (h : p ∈ configFieldEntries c) :
    p ∈ c ∧ p.1 ∉ known_top ∧ isFieldShaped p.2 = true := by
  have h2 := List.mem_filter.mp h
  have h3 := h2.2
  simp at h3
  exact ⟨h2.1, h3.1, h3.2⟩

theorem mem_templateFieldEntries_spec (t : Doc) (p : String × Toml)
    (h : p ∈ templateFieldEntries t) : p ∈ t ∧ isFieldShaped p.2 = true := by
  have h2 := List.mem_filter.mp h
  exact ⟨h2.1, h2.2⟩

/-! ## Claim C1 -/

/-- **C1** (amended).  For a config document `C` and template document `T`
with pairwise-distinct keys and disjoint field labels, and in which no
field-shaped entry is labelled with one of the three setting keys or with
`fields`, the field sequence of the merge is exactly `C`'s field-shaped
entries (normalized, in `C`'s iteration order) followed by `T`'s field-shaped
entries (normalized, in `T`'s iteration order) — so every config field
precedes every template field, each group in source order.  Without the
reserved-label proviso the original claim fails (see the counterexample: a
template field labelled `separator` is merged but dropped by `get_fields`). -/
theorem C1_merge_get_fields_order (C T : Doc)
    (hndC : (C.map Prod.fst).Nodup) (hndT : (T.map Prod.fst).Nodup)
    (hresC : C.all (fun p => !(isFieldShaped p.2) || !(reserved_labels.contains p.1)) = true)
    (hresT : T.all (fun p => !(isFieldShaped p.2) || !(reserved_labels.contains p.1)) = true)
    (hdisj : (configFieldEntries C).all
      (fun p => !(((templateFieldEntries T).map Prod.fst).contains p.1)) = true) :
    get_fields (merge_config_and_template C T) =
      (configFieldEntries C).map normalizeEntry ++
      (templateFieldEntries T).map normalizeEntry := by
  have hresC' := all_reserved_spec C hresC
  have hresT' := all_reserved_spec T hresT
  have hresT2 : ∀ p ∈ T, isFieldShaped p.2 = true → p.1 ∉ known_top :=
    fun p hp hs hmem => hresT' p hp hs (known_top_subset_reserved _ hmem)
  have hdisj' : ∀ p ∈ T, isFieldShaped p.2 = true →
      p.1 ∉ (configFieldEntries C).map Prod.fst := by
    intro p hp hs hmem
    obtain ⟨q, hq, hq1⟩ := List.mem_map.mp hmem
    have h2 := List.all_eq_true.mp hdisj q hq
    have hptfe : p ∈ templateFieldEntries T := List.mem_filter.mpr ⟨hp, hs⟩
    have h3 : ((templateFieldEntries T).map Prod.fst).contains q.1 = true :=
      List.elem_eq_true_of_mem (by rw [hq1]; exact List.mem_map_of_mem Prod.fst hptfe)
    rw [h3] at h2
    simp at h2
  rw [merge_eq_append C T hndC hndT hresT2 hdisj']
  have hfget : dictGet (settingsPart C ++ configFieldEntries C ++
      templateFieldEntries T) "fields" = Option.none := by
    rw [dictGet_eq_none_iff]
    intro hmem
    simp only [List.map_append, List.mem_append] at hmem
    rcases hmem with (hmem | hmem) | hmem
    · have h4 := settingsPart_keys_mem C _ hmem
      simp [known_top] at h4
    · obtain ⟨q, hq, hq1⟩ := List.mem_map.mp hmem
      obtain ⟨hqC, _, hqs⟩ := mem_configFieldEntries_spec C q hq
      exact hresC' q hqC hqs (by rw [hq1]; decide)
    · obtain ⟨q, hq, hq1⟩ := List.mem_map.mp hmem
      obtain ⟨hqT, hqs⟩ := mem_templateFieldEntries_spec T q hq
      exact hresT' q hqT hqs (by rw [hq1]; decide)
  simp only [get_fields, hfget]
  rw [List.append_assoc]
  rw [flatFields_append_known _ _
    (fun p hp => settingsPart_keys_mem C p.1 (List.mem_map_of_mem Prod.fst hp))]
  rw [flatFields_all_fields]
  · rw [List.map_append]
  · intro p hp
    rcases List.mem_append.mp hp with hp | hp
    · obtain ⟨_, hk, hs⟩ := mem_configFieldEntries_spec C p hp
      exact ⟨hs, hk⟩
    · obtain ⟨hpT, hs⟩ := mem_templateFieldEntries_spec T p hp
      exact ⟨hs, hresT2 p hpT hs⟩

/-- **C1 counterexample.**  Config `C = {A: {key: "K"}}` and template
`T = {separator: {key: "S"}}` have disjoint field labels and `T`'s single
entry is field-shaped, yet the field sequence of the merge consists of one
record derived from `C` alone: no record derived from `T`'s entry (in
particular not its normalization) appears, refuting the claim as stated. -/
theorem C1_counterexample :
    templateFieldEntries [("separator", Toml.table [("key", Toml.str "S")])] =
      [("separator", Toml.table [("key", Toml.str "S")])] ∧
    get_fields (merge_config_and_template
        [("A", Toml.table [("key", Toml.str "K")])]
        [("separator", Toml.table [("key", Toml.str "S")])]) =
      [Toml.table [("key", Toml.str "K"), ("value", Toml.str ""),
                   ("label", Toml.str "A")]] ∧
    normalizeEntry ("separator", Toml.table [("key", Toml.str "S")]) ∉
      get_fields (merge_config_and_template
        [("A", Toml.table [("key", Toml.str "K")])]
        [("separator", Toml.table [("key", Toml.str "S")])]) := by
  refine ⟨rfl, rfl, ?_⟩
  decide

/-- Witness for C1 at a concrete config/template pair. -/
theorem C1_witness :
    get_fields (merge_config_and_template
        [("IdentificationCode", Toml.table [("key", Toml.str "K"), ("value", Toml.str "PR")])]
        [("Amount", Toml.table [("key", Toml.str "RSD"), ("value", Toml.str "RSD9000,00")])]) =
      (configFieldEntries
        [("IdentificationCode", Toml.table [("key", Toml.str "K"), ("value", Toml.str "PR")])]).map
          normalizeEntry ++
      (templateFieldEntries
        [("Amount", Toml.table [("key", Toml.str "RSD"), ("value", Toml.str "RSD9000,00")])]).map
          normalizeEntry :=
  C1_merge_get_fields_order _ _ (by decide) (by decide) (by decide) (by decide) (by decide)

/-! ## Merge collision lemmas (claim C4) -/

theorem mem_keys_foldl_insert (f : Doc → String × Toml → Doc) (g : String × Toml → Bool)
    (hf : ∀ m p, f m p = if g p then dictInsert m p.1 p.2 else m)
    (l m : Doc) (a : String) (h : a ∈ m.map Prod.fst) :
    a ∈ (l.foldl f m).map Prod.fst := by
  induction l generalizing m with
  | nil => exact h
  | cons p rest ih =>
    rw [List.foldl_cons]
    refine ih (f m p) ?_
    rw [hf]
    by_cases hg : g p = true
    · rw [if_pos hg]
      exact mem_keys_dictInsert_of_mem m p.1 a p.2 h
    · rw [if_neg hg]
      exact h

theorem fold_keys_congr (f : Doc → String × Toml → Doc) (g : String × Toml → Bool)
    (hf : ∀ m p, f m p = if g p then dictInsert m p.1 p.2 else m)
    (l : Doc) (m₁ m₂ : Doc) (h : m₁.map Prod.fst = m₂.map Prod.fst) :
    (l.foldl f m₁).map Prod.fst = (l.foldl f m₂).map Prod.fst := by
  induction l generalizing m₁ m₂ with
  | nil => exact h
  | cons p rest ih =>
    rw [List.foldl_cons, List.foldl_cons]
    refine ih (f m₁ p) (f m₂ p) ?_
    rw [hf, hf]
    by_cases hg : g p = true
    · rw [if_pos hg, if_pos hg, dictInsert_keys, dictInsert_keys, h]
    · rw [if_neg hg, if_neg hg]
      exact h

theorem fold_filter_keys (f : Doc → String × Toml → Doc) (g : String × Toml → Bool)
    (hf : ∀ m p, f m p = if g p then dictInsert m p.1 p.2 else m)
    (l m : Doc) (lbl : String) (h : lbl ∈ m.map Prod.fst) :
    (l.foldl f m).map Prod.fst =
      ((l.filter (fun p => !(p.1 == lbl))).foldl f m).map Prod.fst := by
  induction l generalizing m with
  | nil => rfl
  | cons p rest ih =>
    by_cases hp : p.1 = lbl
    · have hfilter : (p :: rest).filter (fun p => !(p.1 == lbl)) =
          rest.filter (fun p => !(p.1 == lbl)) := by
        simp [List.filter_cons, hp]
      have hkeys : (f m p).map Prod.fst = m.map Prod.fst := by
        rw [hf]
        by_cases hg : g p = true
        · rw [if_pos hg]
          exact dictInsert_keys_of_mem m p.1 p.2 (hp ▸ h)
        · rw [if_neg hg]
      rw [hfilter, List.foldl_cons, ih (f m p) (hkeys ▸ h)]
      exact fold_keys_congr f g hf _ _ _ hkeys
    · have hfilter : (p :: rest).filter (fun p => !(p.1 == lbl)) =
          p :: rest.filter (fun p => !(p.1 == lbl)) := by
        simp [List.filter_cons, hp]
      have hmem : lbl ∈ (f m p).map Prod.fst := by
        rw [hf]
        by_cases hg : g p = true
        · rw [if_pos hg]
          exact mem_keys_dictInsert_of_mem m p.1 lbl p.2 h
        · rw [if_neg hg]
          exact h
      rw [hfilter, List.foldl_cons, List.foldl_cons]
      exact ih (f m p) hmem

theorem fold_insert_get_of_ne (f : Doc → String × Toml → Doc) (g : String × Toml → Bool)
    (hf : ∀ m p, f m p = if g p then dictInsert m p.1 p.2 else m)
    (l m : Doc) (lbl : String) (h : ∀ p ∈ l, g p = true → p.1 ≠ lbl) :
    dictGet (l.foldl f m) lbl = dictGet m lbl := by
  induction l generalizing m with
  | nil => rfl
  | cons p rest ih =>
    rw [List.foldl_cons, ih (f m p) (fun q hq => h q (List.mem_cons_of_mem _ hq))]
    rw [hf]
    by_cases hg : g p = true
    · rw [if_pos hg]
      exact dictGet_dictInsert_ne m p.1 lbl p.2 (Ne.symm (h p (by simp) hg))
    · rw [if_neg hg]

theorem fold_insert_get_self (f : Doc → String × Toml → Doc) (g : String × Toml → Bool)
    (hf : ∀ m p, f m p = if g p then dictInsert m p.1 p.2 else m)
    (l m : Doc) (lbl : String) (v : Toml)
    (hnd : (l.map Prod.fst).Nodup) (hget : dictGet l lbl = some v)
    (hgv : g (lbl, v) = true) :
    dictGet (l.foldl f m) lbl = some v := by
  induction l generalizing m with
  | nil => simp [dictGet] at hget
  | cons p rest ih =>
    simp only [List.map_cons, List.nodup_cons] at hnd
    by_cases hp : p.1 = lbl
    · have hv : p.2 = v := by
        rw [dictGet, if_pos hp] at hget
        exact Option.some.inj hget
      have hpe : p = (lbl, v) := Prod.ext hp hv
      rw [List.foldl_cons]
      rw [fold_insert_get_of_ne f g hf rest (f m p) lbl
        (fun q hq _ hql => hnd.1 (by
          rw [hp, ← hql]
          exact List.mem_map_of_mem Prod.fst hq))]
      rw [hf, hpe, if_pos hgv]
      exact dictGet_dictInsert_self m lbl v
    · rw [dictGet, if_neg hp] at hget
      rw [List.foldl_cons]
      exact ih _ hnd.2 hget

theorem foldl_insert_keys_nodup (f : Doc → String × Toml → Doc) (g : String × Toml → Bool)
    (hf : ∀ m p, f m p = if g p then dictInsert m p.1 p.2 else m)
    (l m : Doc) (h : (m.map Prod.fst).Nodup) :
    ((l.foldl f m).map Prod.fst).Nodup := by
  induction l generalizing m with
  | nil => exact h
  | cons p rest ih =>
    rw [List.foldl_cons]
    refine ih (f m p) ?_
    rw [hf]
    by_cases hg : g p = true
    · rw [if_pos hg]
      exact dictInsert_keys_nodup m p.1 p.2 h
    · rw [if_neg hg]
      exact h

theorem settingsPart_keys_eq (c : Doc) :
    (settingsPart c).map Prod.fst = known_top.filter (fun k => (dictGet c k).isSome) := by
  simp only [settingsPart]
  induction known_top with
  | nil => rfl
  | cons k rest ih =>
    rcases h : dictGet c k with _ | v <;>
      simp [List.filterMap_cons, List.filter_cons, h, ih]

theorem mem_keys_fold_of_entry (f : Doc → String × Toml → Doc) (g : String × Toml → Bool)
    (hf : ∀ m p, f m p = if g p then dictInsert m p.1 p.2 else m)
    (l m : Doc) (lbl : String) (v : Toml)
    (hget : dictGet l lbl = some v) (hgv : g (lbl, v) = true) :
    lbl ∈ (l.foldl f m).map Prod.fst := by
  induction l generalizing m with
  | nil => simp [dictGet] at hget
  | cons p rest ih =>
    by_cases hp : p.1 = lbl
    · have hv : p.2 = v := by
        rw [dictGet, if_pos hp] at hget
        exact Option.some.inj hget
      have hpe : p = (lbl, v) := Prod.ext hp hv
      rw [List.foldl_cons]
      refine mem_keys_foldl_insert f g hf rest (f m p) lbl ?_
      rw [hf, hpe, if_pos hgv]
      exact mem_keys_dictInsert_self m lbl v
    · rw [dictGet, if_neg hp] at hget
      rw [List.foldl_cons]
      exact ih _ hget

theorem config_step_abstract : ∀ (m : Doc) (p : String × Toml),
    (if known_top.contains p.1 then m
     else if isFieldShaped p.2 then dictInsert m p.1 p.2 else m) =
    if (!(known_top.contains p.1) && isFieldShaped p.2) = true
    then dictInsert m p.1 p.2 else m := by
  intro m p
  by_cases h1 : known_top.contains p.1 <;> by_cases h2 : isFieldShaped p.2 <;>
    simp [h1, h2]

/-! ## Claim C4 -/

/-- **C4.**  When a label `lbl` names a field-shaped entry in both the config
and the template, the merged structure holds the template's value at `lbl`
(first conjunct), the merged key sequence is unchanged from what merging the
template without its `lbl` entry would give — so `lbl` keeps the position its
config insertion gave it and is not moved to the template's relative position
(second conjunct) — and the merged keys are pairwise distinct, so the label
is not duplicated (third conjunct). -/
theorem C4_collision_in_place (C T : Doc) (lbl : String) (cv tv : Toml)
    (hndT : (T.map Prod.fst).Nodup)
    (hC : dictGet C lbl = some cv) (hCs : isFieldShaped cv = true)
    (hT : dictGet T lbl = some tv) (hTs : isFieldShaped tv = true) :
    dictGet (merge_config_and_template C T) lbl = some tv ∧
    (merge_config_and_template C T).map Prod.fst =
      (merge_config_and_template C (T.filter (fun p => !(p.1 == lbl)))).map Prod.fst ∧
    ((merge_config_and_template C T).map Prod.fst).Nodup := by
  have hm0 : known_top.foldl (fun m key =>
      match dictGet C key with
      | some v => dictInsert m key v
      | Option.none => m) [] = settingsPart C := settings_fold_eq C
  refine ⟨?_, ?_, ?_⟩ <;> simp only [merge_config_and_template]
  · exact fold_insert_get_self _ (fun p => isFieldShaped p.2) (fun _ _ => rfl)
      T _ lbl tv hndT hT hTs
  · refine fold_filter_keys _ (fun p => isFieldShaped p.2) (fun _ _ => rfl) T _ lbl ?_
    by_cases hk : known_top.contains lbl = true
    · refine mem_keys_foldl_insert _ _ config_step_abstract C _ lbl ?_
      rw [hm0, settingsPart_keys_eq]
      refine List.mem_filter.mpr ⟨List.mem_of_elem_eq_true hk, ?_⟩
      rw [hC]
      rfl
    · refine mem_keys_fold_of_entry _ _ config_step_abstract C _ lbl cv hC ?_
      simp only [Bool.and_eq_true, Bool.not_eq_true']
      exact ⟨Bool.not_eq_true _ ▸ hk, hCs⟩
  · refine foldl_insert_keys_nodup _ (fun p => isFieldShaped p.2) (fun _ _ => rfl) T _ ?_
    refine foldl_insert_keys_nodup _
      (fun p => !(known_top.contains p.1) && isFieldShaped p.2)
      config_step_abstract C _ ?_
    rw [hm0, settingsPart_keys_eq]
    exact (by decide : known_top.Nodup).filter _

/-- Witness for C4: the template's `Version` entry overrides the config's
`Version` entry value-wise while the label keeps its config position. -/
theorem C4_witness :
    dictGet (merge_config_and_template
        [("Version", Toml.table [("key", Toml.str "V"), ("value", Toml.str "01")]),
         ("Charset", Toml.table [("key", Toml.str "C"), ("value", Toml.str "1")])]
        [("Version", Toml.table [("value", Toml.str "02")])]) "Version" =
      some (Toml.table [("value", Toml.str "02")]) ∧
    (merge_config_and_template
        [("Version", Toml.table [("key", Toml.str "V"), ("value", Toml.str "01")]),
         ("Charset", Toml.table [("key", Toml.str "C"), ("value", Toml.str "1")])]
        [("Version", Toml.table [("value", Toml.str "02")])]).map Prod.fst =
      (merge_config_and_template
        [("Version", Toml.table [("key", Toml.str "V"), ("value", Toml.str "01")]),
         ("Charset", Toml.table [("key", Toml.str "C"), ("value", Toml.str "1")])]
        ([("Version", Toml.table [("value", Toml.str "02")])].filter
          (fun p => !(p.1 == "Version")))).map Prod.fst ∧
    ((merge_config_and_template
        [("Version", Toml.table [("key", Toml.str "V"), ("value", Toml.str "01")]),
         ("Charset", Toml.table [("key", Toml.str "C"), ("value", Toml.str "1")])]
        [("Version", Toml.table [("value", Toml.str "02")])]).map Prod.fst).Nodup :=
  C4_collision_in_place _ _ "Version"
    (Toml.table [("key", Toml.str "V"), ("value", Toml.str "01")])
    (Toml.table [("value", Toml.str "02")])
    (by decide) (by decide) (by decide) (by decide) (by decide)

/-! ## Renderer characterization -/

/-- A field record `render_payload` can process without raising: a dict with
a `key` entry whose value is hashable. -/
def wfField : Toml → Bool
  | .table entries =>
    match dictGet entries "key" with
    | some fk => hashable fk
    | Option.none => false
  | _ => false

/-- The segment a field record contributes to `out` (none when trimmed or
when the record would raise). -/
def field_segment (cfg : Doc) (overrides : List (String × PyVal)) : Toml → Option String
  | .table entries =>
    match dictGet entries "key" with
    | some fk =>
      if trim_empty cfg && pystr (resolveValue overrides fk entries) == "" then Option.none
      else some (tomlStr fk ++ tomlStr (kv_sep cfg) ++
        pystr (resolveValue overrides fk entries))
    | Option.none => Option.none
  | _ => Option.none

/-- The key a field record contributes to `seen` (none when trimmed). -/
def field_seen (cfg : Doc) (overrides : List (String × PyVal)) : Toml → Option Toml
  | .table entries =>
    match dictGet entries "key" with
    | some fk =>
      if trim_empty cfg && pystr (resolveValue overrides fk entries) == "" then Option.none
      else some fk
    | Option.none => Option.none
  | _ => Option.none

/-- The segment an override pair contributes in the extras pass. -/
def extra_segment (cfg : Doc) (seen : List Toml) (p : String × PyVal) : Option String :=
  if seen.contains (.str p.1) then Option.none
  else if trim_empty cfg && (p.2 == PyVal.none || pystr p.2 == "") then Option.none
  else some (p.1 ++ tomlStr (kv_sep cfg) ++ pystr p.2)

theorem renderField_char (cfg : Doc) (ov : List (String × PyVal))
    (st : List String × List Toml) (item : Toml) :
    renderField cfg ov st item =
      if wfField item = true then
        some (st.1 ++ (field_segment cfg ov item).toList,
              st.2 ++ (field_seen cfg ov item).toList)
      else Option.none := by
  cases item with
  | table entries =>
    rcases h : dictGet entries "key" with _ | fk
    · simp [renderField, wfField, field_segment, field_seen, h]
    · by_cases hh : hashable fk = true
      · by_cases ht : (trim_empty cfg && pystr (resolveValue ov fk entries) == "") = true
        · simp [renderField, wfField, field_segment, field_seen, h, hh, ht]
        · simp [renderField, wfField, field_segment, field_seen, h, hh, ht]
      · simp [renderField, wfField, field_segment, field_seen, h, hh]
  | str s => rfl
  | bool b => rfl
  | arr xs => rfl

theorem foldlM_renderField_char (cfg : Doc) (ov : List (String × PyVal))
    (items : List Toml) (st : List String × List Toml) :
    items.foldlM (renderField cfg ov) st =
      if items.all wfField = true then
        some (st.1 ++ items.filterMap (field_segment cfg ov),
              st.2 ++ items.filterMap (field_seen cfg ov))
      else Option.none := by
  induction items generalizing st with
  | nil => simp
  | cons item rest ih =>
    rw [List.foldlM_cons, renderField_char]
    by_cases hw : wfField item = true
    · rw [if_pos hw]
      show rest.foldlM (renderField cfg ov) _ = _
      rw [ih]
      by_cases hall : rest.all wfField = true
      · rw [if_pos hall, if_pos (by simp [hw, hall])]
        cases hseg : field_segment cfg ov item <;>
          cases hsn : field_seen cfg ov item <;>
            simp [List.filterMap_cons, hseg, hsn]
      · rw [if_neg hall, if_neg (by simp [hall])]
    · rw [if_neg hw, if_neg (by simp [hw])]
      rfl

theorem extraStep_char (cfg : Doc) (seen : List Toml) (out : List String)
    (p : String × PyVal) :
    extraStep cfg seen out p = out ++ (extra_segment cfg seen p).toList := by
  unfold extraStep extra_segment
  by_cases h1 : seen.contains (Toml.str p.1) = true
  · rw [if_pos h1, if_pos h1]
    simp
  · rw [if_neg h1, if_neg h1]
    by_cases h2 : (trim_empty cfg && (p.2 == PyVal.none || pystr p.2 == "")) = true
    · rw [if_pos h2, if_pos h2]
      simp
    · rw [if_neg h2, if_neg h2]
      simp

theorem foldl_extraStep_char (cfg : Doc) (seen : List Toml)
    (ov : List (String × PyVal)) (out : List String) :
    ov.foldl (extraStep cfg seen) out = out ++ ov.filterMap (extra_segment cfg seen) := by
  induction ov generalizing out with
  | nil => simp
  | cons p rest ih =>
    rw [List.foldl_cons, extraStep_char, ih]
    cases hseg : extra_segment cfg seen p <;>
      simp [List.filterMap_cons, hseg, List.append_assoc]

theorem render_out_char (cfg : Doc) (ov : List (String × PyVal)) (ie : Bool)
    (hwf : ∀ item ∈ get_fields cfg, wfField item = true) :
    render_out cfg ov ie = some (
      (get_fields cfg).filterMap (field_segment cfg ov) ++
      (if ie then ov.filterMap (extra_segment cfg
        ((get_fields cfg).filterMap (field_seen cfg ov))) else [])) := by
  have hall : (get_fields cfg).all wfField = true := List.all_eq_true.mpr hwf
  simp only [render_out, foldlM_renderField_char, hall, if_true]
  cases ie <;> simp [foldl_extraStep_char]

theorem render_out_none_of_bad (cfg : Doc) (ov : List (String × PyVal)) (ie : Bool)
    (h : (get_fields cfg).all wfField = false) : render_out cfg ov ie = Option.none := by
  simp only [render_out, foldlM_renderField_char, h]
  rfl

/-! ## Claim C2 -/

/-- **C2.**  With `trim_empty` true, a successful `render_payload` builds its
segment list exactly from the per-pair contributions (first conjunct), and a
declared field whose resolved value prints empty contributes no segment
(second conjunct), as does an extra override pair whose value is `None` or
prints empty (third conjunct): a skipped pair adds nothing to the output,
not even its key or a separator. -/
theorem C2_trim_empty_skips (cfg : Doc) (ov : List (String × PyVal)) (ie : Bool)
    (out : List String)
    (htrim : trim_empty cfg = true) (h : render_out cfg ov ie = some out) :
    out = (get_fields cfg).filterMap (field_segment cfg ov) ++
      (if ie then ov.filterMap (extra_segment cfg
        ((get_fields cfg).filterMap (field_seen cfg ov))) else []) ∧
    (∀ (entries : List (String × Toml)) (fk : Toml), dictGet entries "key" = some fk →
      pystr (resolveValue ov fk entries) = "" →
      field_segment cfg ov (.table entries) = Option.none) ∧
    (∀ p : String × PyVal, p.2 = PyVal.none ∨ pystr p.2 = "" →
      extra_segment cfg ((get_fields cfg).filterMap (field_seen cfg ov)) p =
        Option.none) := by
  refine ⟨?_, ?_, ?_⟩
  · have hall : (get_fields cfg).all wfField = true := by
      rcases hb : (get_fields cfg).all wfField with _ | _
      · rw [render_out_none_of_bad cfg ov ie hb] at h
        exact absurd h (by simp)
      · rfl
    rw [render_out_char cfg ov ie (List.all_eq_true.mp hall)] at h
    exact (Option.some.inj h).symm
  · intro entries fk hget hemp
    simp [field_segment, hget, htrim, hemp]
  · intro p hp
    unfold extra_segment
    by_cases h1 : ((get_fields cfg).filterMap (field_seen cfg ov)).contains
        (Toml.str p.1) = true
    · rw [if_pos h1]
    · rw [if_neg h1, if_pos]
      rcases hp with hp | hp <;> simp [htrim, hp]

/-- Witness for C2 at a concrete merged structure: the empty-valued declared
field `K` and the empty-valued extra override `X` contribute nothing. -/
theorem C2_witness :
    ["R:v"] =
      (get_fields [("A", Toml.table [("key", Toml.str "K"), ("value", Toml.str "")]),
                   ("B", Toml.table [("key", Toml.str "R"), ("value", Toml.str "v")])]).filterMap
        (field_segment
          [("A", Toml.table [("key", Toml.str "K"), ("value", Toml.str "")]),
           ("B", Toml.table [("key", Toml.str "R"), ("value", Toml.str "v")])]
          [("X", PyVal.val (Toml.str ""))]) ++
      (if true then
        [("X", PyVal.val (Toml.str ""))].filterMap
          (extra_segment
            [("A", Toml.table [("key", Toml.str "K"), ("value", Toml.str "")]),
             ("B", Toml.table [("key", Toml.str "R"), ("value", Toml.str "v")])]
            ((get_fields [("A", Toml.table [("key", Toml.str "K"), ("value", Toml.str "")]),
                          ("B", Toml.table [("key", Toml.str "R"), ("value", Toml.str "v")])]).filterMap
              (field_seen
                [("A", Toml.table [("key", Toml.str "K"), ("value", Toml.str "")]),
                 ("B", Toml.table [("key", Toml.str "R"), ("value", Toml.str "v")])]
                [("X", PyVal.val (Toml.str ""))])))
       else []) :=
  (C2_trim_empty_skips
    [("A", Toml.table [("key", Toml.str "K"), ("value", Toml.str "")]),
     ("B", Toml.table [("key", Toml.str "R"), ("value", Toml.str "v")])]
    [("X", PyVal.val (Toml.str ""))] true ["R:v"] (by decide) (by decide)).1

/-! ## Claim C3 -/

/-- **C3 counterexample.**  For the merged structure whose `fields` entry is
an array holding one record with no entries, `get_fields` returns that record
but `render_payload` raises (`item["key"]` is a `KeyError`), modelled as
`none`: the renderer is not total. -/
theorem C3_counterexample :
    get_fields [("fields", Toml.arr [Toml.table []])] = [Toml.table []] ∧
    render_payload [("fields", Toml.arr [Toml.table []])] [] true = Option.none := by
  exact ⟨rfl, rfl⟩

/-- **C3** (amended).  `get_fields` is total by construction; `render_payload`
returns a result for every override map whenever every field record it yields
is a dict containing a hashable `key` entry and the `separator` setting (if
present) is a string.  Array-shape records lacking `key` (see the
counterexample) make it raise. -/
theorem C3_total_render (cfg : Doc) (ov : List (String × PyVal)) (ie : Bool)
    (hwf : ∀ item ∈ get_fields cfg, wfField item = true)
    (hsep : ∃ s, separator cfg = Toml.str s) :
    (render_payload cfg ov ie).isSome = true := by
  obtain ⟨s, hs⟩ := hsep
  simp only [render_payload]
  rw [render_out_char cfg ov ie hwf]
  simp [hs]

/-- Witness for C3 at a concrete merged structure and override map. -/
theorem C3_witness :
    (render_payload [("Amount", Toml.table [("key", Toml.str "RSD")])]
      [("RSD", PyVal.val (Toml.str "42"))] true).isSome = true :=
  C3_total_render _ _ _ (by decide) ⟨"|", by decide⟩

/-! ## Claim C7 -/

/-- **C7.**  Whenever the merged structure has a top-level `fields` entry
whose value is a sequence, `get_fields` returns exactly that sequence's
elements in order, whatever else the structure contains — in particular, an
empty sequence short-circuits to the empty result even when other
table-shaped top-level entries are present. -/
theorem C7_fields_array_short_circuit (cfg : Doc) (items : List Toml)
    (h : dictGet cfg "fields" = some (Toml.arr items)) :
    get_fields cfg = items := by
  simp [get_fields, h]

/-- Witness for C7: an empty `fields` array yields the empty sequence even
though a field-shaped top-level entry is present. -/
theorem C7_witness :
    get_fields [("fields", Toml.arr []),
                ("Other", Toml.table [("key", Toml.str "K"), ("value", Toml.str "V")])] =
      [] :=
  C7_fields_array_short_circuit _ [] (by decide)

/-! ## Claim C5 -/

/-- **C5.**  Value resolution in `render_payload`: a key present in the
override map resolves to the override's value (first conjunct; a `None`
override becomes the empty string, second conjunct); a key absent from the
overrides resolves to the field's own stored value (third conjunct), and a
missing stored value resolves to the empty string (fourth conjunct).  The
rendered segment for an overridden field uses the override's value, not the
stored default (fifth conjunct). -/
theorem C5_override_precedence (cfg : Doc) (ov : List (String × PyVal))
    (st : List String × List Toml) (entries : List (String × Toml))
    (k : String) (v : PyVal) :
    (dictGet ov k = some v → v ≠ PyVal.none →
      resolveValue ov (Toml.str k) entries = v) ∧
    (dictGet ov k = some PyVal.none →
      resolveValue ov (Toml.str k) entries = PyVal.val (Toml.str "")) ∧
    (dictGet ov k = Option.none →
      resolveValue ov (Toml.str k) entries =
        PyVal.val ((dictGet entries "value").getD (Toml.str ""))) ∧
    (dictGet ov k = Option.none → dictGet entries "value" = Option.none →
      resolveValue ov (Toml.str k) entries = PyVal.val (Toml.str "")) ∧
    (dictGet entries "key" = some (Toml.str k) → dictGet ov k = some v →
      v ≠ PyVal.none → pystr v ≠ "" →
      renderField cfg ov st (Toml.table entries) =
        some (st.1 ++ [k ++ tomlStr (kv_sep cfg) ++ pystr v],
              st.2 ++ [Toml.str k])) := by
  refine ⟨?_, ?_, ?_, ?_, ?_⟩
  · intro hov hne
    cases v with
    | none => exact absurd rfl hne
    | val t => simp [resolveValue, hov]
  · intro hov
    simp [resolveValue, hov]
  · intro hov
    simp [resolveValue, hov]
  · intro hov hstored
    simp [resolveValue, hov, hstored]
  · intro hk hov hne hemp
    have hres : resolveValue ov (Toml.str k) entries = v := by
      cases v with
      | none => exact absurd rfl hne
      | val t => simp [resolveValue, hov]
    have hbeq : (pystr v == "") = false := by
      rw [Bool.eq_false_iff]
      intro hb
      exact hemp (by simpa using hb)
    simp [renderField, hk, hashable, hres, hbeq, tomlStr]

/-- Witness for C5: an override replaces a field's stored default in the
rendered segment. -/
theorem C5_witness :
    renderField ([] : Doc) [("K", PyVal.val (Toml.str "X"))] ([], [])
        (Toml.table [("key", Toml.str "K"), ("value", Toml.str "d")]) =
      some ([] ++ ["K" ++ tomlStr (kv_sep []) ++ pystr (PyVal.val (Toml.str "X"))],
            [] ++ [Toml.str "K"]) :=
  (C5_override_precedence [] [("K", PyVal.val (Toml.str "X"))] ([], [])
    [("key", Toml.str "K"), ("value", Toml.str "d")] "K"
    (PyVal.val (Toml.str "X"))).2.2.2.2
    (by decide) (by decide) (by decide) (by decide)

/-! ## Claim C9 -/

/-- **C9.**  `None`-valued overrides are handled asymmetrically.  For a
declared field, an override value of `None` is converted to the empty string,
so with `trim_empty` true the field is skipped entirely (first conjunct).  In
the extras pass with `trim_empty` false, an unseen override key with value
`None` is rendered as `key + kv_sep + "None"` — the direct string conversion
of `None` — rather than as an empty value (second conjunct); end to end, on a
structure with no declared fields it yields exactly that one segment (third
conjunct). -/
theorem C9_none_asymmetry (cfg : Doc) (ov : List (String × PyVal))
    (st : List String × List Toml) (entries : List (String × Toml))
    (k s : String) (seen : List Toml) (out : List String) :
    (trim_empty cfg = true → dictGet entries "key" = some (Toml.str k) →
      dictGet ov k = some PyVal.none →
      renderField cfg ov st (Toml.table entries) = some st) ∧
    (trim_empty cfg = false → seen.contains (Toml.str k) = false →
      extraStep cfg seen out (k, PyVal.none) =
        out ++ [k ++ tomlStr (kv_sep cfg) ++ "None"]) ∧
    (get_fields cfg = [] → trim_empty cfg = false → separator cfg = Toml.str s →
      render_payload cfg [(k, PyVal.none)] true =
        some (k ++ tomlStr (kv_sep cfg) ++ "None")) := by
    refine ⟨?_, ?_, ?_⟩
    · intro htrim hk hov
      simp [renderField, hk, hashable, resolveValue, hov, htrim, pystr, tomlStr]
    · intro htrim hseen
      have hs2 : Toml.str k ∉ seen := by
        intro hm
        have h3 : seen.contains (Toml.str k) = true := List.elem_eq_true_of_mem hm
        rw [h3] at hseen
        exact Bool.false_ne_true hseen.symm
      simp [extraStep, hs2, htrim, pystr]
    · intro hfields htrim hsep
      have hwf : ∀ item ∈ get_fields cfg, wfField item = true := by
        rw [hfields]
        intro item hmem
        cases hmem
      have hro := render_out_char cfg [(k, PyVal.none)] true hwf
      rw [hfields] at hro
      simp only [List.filterMap_nil, List.nil_append, if_true] at hro
      have hex : extra_segment cfg [] (k, PyVal.none) =
          some (k ++ tomlStr (kv_sep cfg) ++ "None") := by
        simp [extra_segment, htrim, pystr]
      simp only [List.filterMap_cons, List.filterMap_nil, hex] at hro
      simp [render_payload, hro, hsep]
      rfl

/-- Witness for C9: with trimming disabled, a `None`-valued extra override
key renders as `X:None`. -/
theorem C9_witness :
    render_payload [("trim_empty", Toml.bool false)] [("X", PyVal.none)] true =
      some ("X" ++ tomlStr (kv_sep [("trim_empty", Toml.bool false)]) ++ "None") :=
  (C9_none_asymmetry [("trim_empty", Toml.bool false)] [("X", PyVal.none)]
    ([], []) [] "X" "|" [] []).2.2 (by decide) (by decide) (by decide)

/-! ## Claim C6 -/

/-- **C6.**  With `include_extras` true, the segment list is the declared
segments followed by the extra override segments, the latter in the override
map's iteration order and filtered by the same trim rule (first conjunct); an
override key already rendered as a declared field (i.e. in `seen`)
contributes no extra segment (second conjunct); and, the override map's keys
being pairwise distinct, each override key contributes at most one extra
segment (third conjunct). -/
theorem C6_extras_appended (cfg : Doc) (ov : List (String × PyVal))
    (hwf : ∀ item ∈ get_fields cfg, wfField item = true)
    (hnd : (ov.map Prod.fst).Nodup) :
    render_out cfg ov true = some (
      (get_fields cfg).filterMap (field_segment cfg ov) ++
      ov.filterMap (extra_segment cfg
        ((get_fields cfg).filterMap (field_seen cfg ov)))) ∧
    (∀ p ∈ ov, Toml.str p.1 ∈ (get_fields cfg).filterMap (field_seen cfg ov) →
      extra_segment cfg ((get_fields cfg).filterMap (field_seen cfg ov)) p =
        Option.none) ∧
    (∀ k : String, ((ov.filter (fun q => q.1 == k)).filterMap
      (extra_segment cfg ((get_fields cfg).filterMap (field_seen cfg ov)))).length
        ≤ 1) := by
  refine ⟨?_, ?_, ?_⟩
  · rw [render_out_char cfg ov true hwf]
    rfl
  · intro p _ hmem
    unfold extra_segment
    rw [if_pos (List.elem_eq_true_of_mem hmem)]
  · intro k
    calc ((ov.filter (fun q => q.1 == k)).filterMap _).length
        ≤ (ov.filter (fun q => q.1 == k)).length := List.length_filterMap_le _ _
      _ = (ov.map Prod.fst).count k := by
          rw [List.count, List.countP_map, ← List.countP_eq_length_filter]
          rfl
      _ ≤ 1 := List.nodup_iff_count_le_one.mp hnd k

/-- Witness for C6: the unseen override key `X` is appended after the
declared segments; the override for the declared key `RSD` is not appended
again. -/
theorem C6_witness :
    render_out [("Amount", Toml.table [("key", Toml.str "RSD"), ("value", Toml.str "9")])]
      [("RSD", PyVal.val (Toml.str "8")), ("X", PyVal.val (Toml.str "1"))] true = some (
      (get_fields [("Amount", Toml.table [("key", Toml.str "RSD"), ("value", Toml.str "9")])]).filterMap
        (field_segment [("Amount", Toml.table [("key", Toml.str "RSD"), ("value", Toml.str "9")])]
          [("RSD", PyVal.val (Toml.str "8")), ("X", PyVal.val (Toml.str "1"))]) ++
      [("RSD", PyVal.val (Toml.str "8")), ("X", PyVal.val (Toml.str "1"))].filterMap
        (extra_segment [("Amount", Toml.table [("key", Toml.str "RSD"), ("value", Toml.str "9")])]
          ((get_fields [("Amount", Toml.table [("key", Toml.str "RSD"), ("value", Toml.str "9")])]).filterMap
            (field_seen [("Amount", Toml.table [("key", Toml.str "RSD"), ("value", Toml.str "9")])]
              [("RSD", PyVal.val (Toml.str "8")), ("X", PyVal.val (Toml.str "1"))])))) :=
  (C6_extras_appended
    [("Amount", Toml.table [("key", Toml.str "RSD"), ("value", Toml.str "9")])]
    [("RSD", PyVal.val (Toml.str "8")), ("X", PyVal.val (Toml.str "1"))]
    (by decide) (by decide)).1

/-! ## Claim C10 -/

theorem settingsPart_get (c : Doc) (s : String) (hs : s ∈ known_top) :
    dictGet (settingsPart c) s = dictGet c s := by
  have hs2 : s = "separator" ∨ s = "kv_sep" ∨ s = "trim_empty" := by
    simpa [known_top] using hs
  rcases h1 : dictGet c "separator" with _ | v1 <;>
    rcases h2 : dictGet c "kv_sep" with _ | v2 <;>
      rcases h3 : dictGet c "trim_empty" with _ | v3 <;>
        rcases hs2 with rfl | rfl | rfl <;>
          simp [settingsPart, known_top, List.filterMap, h1, h2, h3, dictGet]

/-- **C10 counterexample.**  A template whose top-level `separator` entry is
a field-shaped table is copied by the merge: the merged structure's
`separator` setting then comes from the template, not the config (first two
conjuncts), and it changes the rendered output (the non-string separator
makes `str.join` raise, while the config-only structure renders `""`). -/
theorem C10_counterexample :
    dictGet (merge_config_and_template []
        [("separator", Toml.table [("key", Toml.str "Z")])]) "separator" =
      some (Toml.table [("key", Toml.str "Z")]) ∧
    dictGet ([] : Doc) "separator" = Option.none ∧
    render_payload (merge_config_and_template []
        [("separator", Toml.table [("key", Toml.str "Z")])]) [] true = Option.none ∧
    render_payload ([] : Doc) [] true = some "" := by
  exact ⟨rfl, rfl, rfl, rfl⟩

/-- **C10** (amended).  Provided none of the template's top-level
`separator`/`kv_sep`/`trim_empty` entries is a field-shaped table — in
particular whenever they are scalars, which the merge drops — the three
rendering settings of the merged structure are exactly those of the config
document, so the template's setting entries never affect the rendered
output. -/
theorem C10_settings_from_config (C T : Doc)
    (hT : T.all (fun p => !(known_top.contains p.1) || !(isFieldShaped p.2)) = true) :
    separator (merge_config_and_template C T) = separator C ∧
    kv_sep (merge_config_and_template C T) = kv_sep C ∧
    trim_empty (merge_config_and_template C T) = trim_empty C ∧
    (∀ s ∈ known_top, dictGet (merge_config_and_template C T) s = dictGet C s) := by
  have hget : ∀ s ∈ known_top,
      dictGet (merge_config_and_template C T) s = dictGet C s := by
    intro s hs
    have h3 : known_top.contains s = true := List.elem_eq_true_of_mem hs
    simp only [merge_config_and_template]
    rw [fold_insert_get_of_ne _ (fun p => isFieldShaped p.2) (fun _ _ => rfl) T _ s
      (fun p hp hg heq => by
        have hg2 : isFieldShaped p.2 = true := hg
        have h2 := List.all_eq_true.mp hT p hp
        rw [hg2, heq, h3] at h2
        simp at h2)]
    rw [fold_insert_get_of_ne _
      (fun p => !(known_top.contains p.1) && isFieldShaped p.2)
      config_step_abstract C _ s
      (fun p hp hg heq => by
        simp only [Bool.and_eq_true, Bool.not_eq_true'] at hg
        rw [heq] at hg
        exact Bool.false_ne_true (hg.1.symm.trans h3))]
    rw [settings_fold_eq, settingsPart_get C s hs]
  refine ⟨?_, ?_, ?_, hget⟩
  · simp only [separator]
    rw [hget "separator" (by decide)]
  · simp only [kv_sep]
    rw [hget "kv_sep" (by decide)]
  · simp only [trim_empty]
    rw [hget "trim_empty" (by decide)]

/-- Witness for C10: a template carrying a scalar `separator` entry and a
field does not disturb the config's settings. -/
theorem C10_witness :
    separator (merge_config_and_template [("separator", Toml.str "-")]
      [("separator", Toml.str "+"),
       ("Amount", Toml.table [("key", Toml.str "RSD")])]) =
      separator [("separator", Toml.str "-")] ∧
    kv_sep (merge_config_and_template [("separator", Toml.str "-")]
      [("separator", Toml.str "+"),
       ("Amount", Toml.table [("key", Toml.str "RSD")])]) =
      kv_sep [("separator", Toml.str "-")] ∧
    trim_empty (merge_config_and_template [("separator", Toml.str "-")]
      [("separator", Toml.str "+"),
       ("Amount", Toml.table [("key", Toml.str "RSD")])]) =
      trim_empty [("separator", Toml.str "-")] :=
  ⟨(C10_settings_from_config [("separator", Toml.str "-")]
      [("separator", Toml.str "+"),
       ("Amount", Toml.table [("key", Toml.str "RSD")])] (by decide)).1,
   (C10_settings_from_config [("separator", Toml.str "-")]
      [("separator", Toml.str "+"),
       ("Amount", Toml.table [("key", Toml.str "RSD")])] (by decide)).2.1,
   (C10_settings_from_config [("separator", Toml.str "-")]
      [("separator", Toml.str "+"),
       ("Amount", Toml.table [("key", Toml.str "RSD")])] (by decide)).2.2.1⟩

/-! ## Claim C8 -/

/-- The stored default of a field record body: `item.get("value", "")`. -/
def storedDefault (entries : List (String × Toml)) : Toml :=
  (dictGet entries "value").getD (.str "")

/-- The `key` entry of a field record, when the record is a dict. -/
def fieldKeyOf : Toml → Option Toml
  | .table entries => dictGet entries "key"
  | _ => Option.none

/-- `m` maps a field record's key (when it is a string `m` contains) to the
record's own stored default. -/
def defaultsAgree (m : List (String × PyVal)) : Toml → Bool
  | .table entries =>
    match dictGet entries "key" with
    | some (.str k) =>
      match dictGet m k with
      | some v => decide (v = PyVal.val (storedDefault entries))
      | Option.none => true
    | _ => true
  | _ => true

theorem resolveValue_nil (fk : Toml) (entries : List (String × Toml)) :
    resolveValue [] fk entries = PyVal.val (storedDefault entries) := by
  cases fk <;> rfl

theorem resolveValue_defaults_eq (m : List (String × PyVal)) (fk : Toml)
    (entries : List (String × Toml))
    (h : defaultsAgree m (.table entries) = true)
    (hk : dictGet entries "key" = some fk) :
    resolveValue m fk entries = resolveValue [] fk entries := by
  cases fk with
  | str k =>
    rw [resolveValue_nil]
    simp only [defaultsAgree, hk] at h
    rcases hm : dictGet m k with _ | v
    · simp [resolveValue, hm, storedDefault]
    · rw [hm] at h
      have hv : v = PyVal.val (storedDefault entries) := of_decide_eq_true h
      simp [resolveValue, hm, hv, storedDefault]
  | bool b =>
    rw [resolveValue_nil]
    rfl
  | table e2 =>
    rw [resolveValue_nil]
    rfl
  | arr xs =>
    rw [resolveValue_nil]
    rfl

theorem renderField_defaults_eq (cfg : Doc) (m : List (String × PyVal))
    (st : List String × List Toml) (item : Toml)
    (h : defaultsAgree m item = true) :
    renderField cfg m st item = renderField cfg [] st item := by
  cases item with
  | table entries =>
    simp only [renderField]
    rcases hk : dictGet entries "key" with _ | fk
    · rfl
    · simp only [hk]
      rw [resolveValue_defaults_eq m fk entries h hk]
  | str s => rfl
  | bool b => rfl
  | arr xs => rfl

theorem foldlM_congr_mem {α β : Type} (f g : β → α → Option β) (l : List α) (b : β)
    (h : ∀ b' a, a ∈ l → f b' a = g b' a) : l.foldlM f b = l.foldlM g b := by
  induction l generalizing b with
  | nil => rfl
  | cons a rest ih =>
    rw [List.foldlM_cons, List.foldlM_cons, h b a (by simp)]
    cases hg : g b a with
    | none => rfl
    | some b2 =>
      show rest.foldlM f b2 = rest.foldlM g b2
      exact ih b2 (fun b' a' ha' => h b' a' (List.mem_cons_of_mem _ ha'))

theorem dictGet_of_mem_nodup {α : Type} (l : List (String × α)) (p : String × α)
    (hnd : (l.map Prod.fst).Nodup) (hp : p ∈ l) : dictGet l p.1 = some p.2 := by
  induction l with
  | nil => cases hp
  | cons q rest ih =>
    simp only [List.map_cons, List.nodup_cons] at hnd
    rcases List.mem_cons.mp hp with rfl | hp2
    · simp [dictGet]
    · have hne : q.1 ≠ p.1 := by
        intro heq
        exact hnd.1 (heq ▸ List.mem_map_of_mem Prod.fst hp2)
      simp [dictGet, hne, ih hnd.2 hp2]

/-- **C8.**  Rendering with an override map that (a) has pairwise-distinct
keys, (b) maps any declared field key it contains to that field's own stored
default, and (c) contains only declared field keys, yields the same string as
rendering with the empty override map — defaults-as-overrides are the
identity. -/
theorem C8_default_overrides_identity (cfg : Doc) (m : List (String × PyVal)) (ie : Bool)
    (hnd : (m.map Prod.fst).Nodup)
    (hagree : ∀ item ∈ get_fields cfg, defaultsAgree m item = true)
    (hdom : ∀ p ∈ m, ∃ item ∈ get_fields cfg, fieldKeyOf item = some (Toml.str p.1)) :
    render_payload cfg [] ie = render_payload cfg m ie := by
  have hfold : (get_fields cfg).foldlM (renderField cfg m) (([], []) : List String × List Toml) =
      (get_fields cfg).foldlM (renderField cfg []) ([], []) :=
    foldlM_congr_mem _ _ _ _
      (fun st item hitem => renderField_defaults_eq cfg m st item (hagree item hitem))
  by_cases hall : (get_fields cfg).all wfField = true
  · have hzero : ∀ p ∈ m, extra_segment cfg
        ((get_fields cfg).filterMap (field_seen cfg [])) p = Option.none := by
      intro p hp
      by_cases hseen : ((get_fields cfg).filterMap (field_seen cfg [])).contains
          (Toml.str p.1) = true
      · unfold extra_segment
        rw [if_pos hseen]
      · obtain ⟨item, hitem, hkey⟩ := hdom p hp
        cases item with
        | table entries =>
          simp only [fieldKeyOf] at hkey
          by_cases hcond : (trim_empty cfg &&
              pystr (resolveValue [] (Toml.str p.1) entries) == "") = true
          · have hT : trim_empty cfg = true := by
              rcases Bool.and_eq_true_iff.mp hcond with ⟨h1, _⟩
              exact h1
            have hE : pystr (resolveValue [] (Toml.str p.1) entries) = "" := by
              rcases Bool.and_eq_true_iff.mp hcond with ⟨_, h2⟩
              simpa using h2
            rw [resolveValue_nil] at hE
            have hag := hagree _ hitem
            simp only [defaultsAgree, hkey] at hag
            rw [dictGet_of_mem_nodup m p hnd hp] at hag
            have hv : p.2 = PyVal.val (storedDefault entries) := of_decide_eq_true hag
            unfold extra_segment
            rw [if_neg hseen, if_pos]
            rw [hT, hv]
            simp only [Bool.true_and, Bool.or_eq_true]
            right
            simpa using hE
          · exfalso
            apply hseen
            refine List.elem_eq_true_of_mem (List.mem_filterMap.mpr
              ⟨Toml.table entries, hitem, ?_⟩)
            simp [field_seen, hkey, hcond]
        | str s => simp [fieldKeyOf] at hkey
        | bool b => simp [fieldKeyOf] at hkey
        | arr xs => simp [fieldKeyOf] at hkey
    have hout : render_out cfg m ie = render_out cfg [] ie := by
      simp only [render_out, hfold, foldlM_renderField_char, hall, if_true,
        List.nil_append]
      cases ie
      · rfl
      · show some (List.foldl (extraStep cfg
            (List.filterMap (field_seen cfg []) (get_fields cfg)))
            (List.filterMap (field_segment cfg []) (get_fields cfg)) m) =
          some (List.foldl (extraStep cfg
            (List.filterMap (field_seen cfg []) (get_fields cfg)))
            (List.filterMap (field_segment cfg []) (get_fields cfg)) [])
        rw [foldl_extraStep_char, List.filterMap_eq_nil_iff.mpr hzero, List.append_nil]
        rfl
    simp only [render_payload, hout]
  · have hb : (get_fields cfg).all wfField = false := Bool.eq_false_iff.mpr hall
    simp only [render_payload, render_out_none_of_bad _ _ _ hb]

/-- Witness for C8: overriding the single field `K` with its own default
`PR` renders the same string as no overrides. -/
theorem C8_witness :
    render_payload [("A", Toml.table [("key", Toml.str "K"), ("value", Toml.str "PR")])]
      [] true =
    render_payload [("A", Toml.table [("key", Toml.str "K"), ("value", Toml.str "PR")])]
      [("K", PyVal.val (Toml.str "PR"))] true :=
  C8_default_overrides_identity _ _ _ (by decide) (by decide) (by decide)

end PayQR
